import Mathlib

/-!
Verification of the panorama hotspot pipeline (`detect.py` / `app.py`).

The development shallowly embeds the Python source:

* Python `str` values are modelled as `List Char` (restricted to the ASCII
  character classes the program manipulates; Python's `\s` and `\d` also
  match further Unicode characters, which never occur in the inputs the
  claims quantify over).
* `re.findall` with the pattern `\[\s*(\d+(?:\.\d+)?)\s*,\s*(\d+(?:\.\d+)?)\s*\]`
  is embedded as the deterministic scanner `findall` below.  For this
  particular pattern greedy matching never needs backtracking across
  sub-expressions (whitespace, digits, `,`, `.`, `]` are pairwise disjoint
  character classes), so a deterministic scanner computes exactly the
  regex engine's leftmost, non-overlapping matches.
* Python floats are idealised as exact rationals `ℚ`; every numeric value
  appearing in the claims ('-180.00', '90.00', two-decimal roundings, …)
  is exactly representable, so the idealisation is faithful on them.
* Fallible code (label generation, the whole detection run) returns
  `Option`; `none` models an uncaught Python exception.
-/

/-- Whitespace characters matched by Python's `\s` (ASCII range). -/
def isWsChar (c : Char) : Bool :=
  c = ' ' || c = '\t' || c = '\n' || c = '\r' || c = '\x0b' || c = '\x0c'

/-- Splits a list into its longest prefix of characters satisfying `p`
and the remaining suffix, as the regex engine's greedy `p*` does. -/
def wsplit (p : Char → Bool) : List Char → List Char × List Char
  | [] => ([], [])
  | c :: r =>
    if p c then
      let s := wsplit p r
      (c :: s.1, s.2)
    else ([], c :: r)

theorem wsplit_nilHead (p : Char → Bool) (l : List Char)
    (h : ∀ c r, l = c :: r → p c = false) : wsplit p l = ([], l) := by
  cases l with
  | nil => rfl
  | cons c r => simp [wsplit, h c r rfl]

theorem wsplit_append (p : Char → Bool) (a l : List Char)
    (ha : ∀ c ∈ a, p c = true) (hl : ∀ c r, l = c :: r → p c = false) :
    wsplit p (a ++ l) = (a, l) := by
  induction a with
  | nil => simpa using wsplit_nilHead p l hl
  | cons c a ih =>
    have hc : p c = true := ha c (by simp)
    have ih' := ih (fun x hx => ha x (by simp [hx]))
    simp [wsplit, hc, ih']

theorem wsplit_snd_length (p : Char → Bool) (l : List Char) :
    (wsplit p l).2.length ≤ l.length := by
  induction l with
  | nil => simp [wsplit]
  | cons c r ih =>
    by_cases h : p c = true
    · simp [wsplit, h]; omega
    · simp [wsplit, h]

/-- Greedy match of one capture group `\d+(?:\.\d+)?` at the head of the
input; returns the captured characters and the remaining input.  The
optional fractional part is taken exactly when a `.` followed by at
least one digit is present, which is what the regex engine's single
local backtrack over `(?:\.\d+)?` amounts to. -/
def matchNum (l : List Char) : Option (List Char × List Char) :=
  let s := wsplit Char.isDigit l
  if s.1 = [] then none
  else
    match s.2 with
    | '.' :: r2 =>
      let t := wsplit Char.isDigit r2
      if t.1 = [] then some (s.1, s.2)
      else some (s.1 ++ '.' :: t.1, t.2)
    | _ => some (s.1, s.2)

theorem matchNum_length {l n r : List Char} (h : matchNum l = some (n, r)) :
    r.length ≤ l.length := by
  have hsl := wsplit_snd_length Char.isDigit l
  unfold matchNum at h
  dsimp only at h
  split at h
  · simp at h
  · split at h
    · rename_i r2 heq
      have htl := wsplit_snd_length Char.isDigit r2
      split at h
      · simp only [Option.some.injEq, Prod.mk.injEq] at h
        rw [← h.2]
        exact hsl
      · simp only [Option.some.injEq, Prod.mk.injEq] at h
        rw [← h.2]
        rw [heq] at hsl
        simp at hsl
        omega
    · simp only [Option.some.injEq, Prod.mk.injEq] at h
      rw [← h.2]
      exact hsl

/-- Match of the whole pattern
`\[\s*(\d+(?:\.\d+)?)\s*,\s*(\d+(?:\.\d+)?)\s*\]` at the head of the
input.  On success returns both captured groups and the remaining input. -/
def matchPair (l : List Char) : Option ((List Char × List Char) × List Char) :=
  match l with
  | [] => none
  | c :: r0 =>
    if c = '[' then
      let r1 := (wsplit isWsChar r0).2
      match matchNum r1 with
      | none => none
      | some (n1, r2) =>
        let r3 := (wsplit isWsChar r2).2
        match r3 with
        | ',' :: r4 =>
          let r5 := (wsplit isWsChar r4).2
          match matchNum r5 with
          | none => none
          | some (n2, r6) =>
            let r7 := (wsplit isWsChar r6).2
            match r7 with
            | ']' :: r8 => some ((n1, n2), r8)
            | _ => none
        | _ => none
    else none

theorem matchPair_length {l : List Char} {pr : List Char × List Char}
    {rest : List Char} (h : matchPair l = some (pr, rest)) :
    rest.length < l.length := by
  unfold matchPair at h
  match l with
  | [] => simp at h
  | c :: r0 =>
    by_cases hc : c = '['
    · simp only [hc, if_true] at h
      have h1 := wsplit_snd_length isWsChar r0
      split at h
      · simp at h
      · rename_i n1 r2 hm1
        have h2 := matchNum_length hm1
        split at h
        · rename_i r4 heq3
          have h3 := wsplit_snd_length isWsChar r2
          rw [heq3] at h3
          have h5 := wsplit_snd_length isWsChar r4
          split at h
          · simp at h
          · rename_i n2 r6 hm2
            have h6 := matchNum_length hm2
            split at h
            · rename_i r8 heq7
              have h7 := wsplit_snd_length isWsChar r6
              rw [heq7] at h7
              simp only [Option.some.injEq, Prod.mk.injEq] at h
              rw [← h.2]
              simp at h3 h7
              simp only [List.length_cons]
              omega
            · simp at h
        · simp at h
    · simp [hc] at h

/-- Fuel-indexed version of the overall scan: at each position try the
full pattern; on success emit both capture groups and continue after the
match, otherwise advance one character (the semantics of `re.findall`
for a pattern that cannot match the empty string). -/
def findallF : Nat → List Char → List (List Char × List Char)
  | 0, _ => []
  | _, [] => []
  | fuel + 1, c :: r =>
    match matchPair (c :: r) with
    | some (pr, rest) => pr :: findallF fuel rest
    | none => findallF fuel r

theorem findallF_fuel (fuel fuel' : Nat) (l : List Char)
    (h : l.length ≤ fuel) (h' : l.length ≤ fuel') :
    findallF fuel l = findallF fuel' l := by
  induction fuel generalizing l fuel' with
  | zero =>
    have : l = [] := List.length_eq_zero.mp (Nat.le_zero.mp h)
    subst this
    cases fuel' <;> rfl
  | succ f ih =>
    cases l with
    | nil => cases fuel' <;> rfl
    | cons c r =>
      cases fuel' with
      | zero => simp at h'
      | succ f' =>
        simp only [findallF]
        cases hm : matchPair (c :: r) with
        | some v =>
          obtain ⟨pr, rest⟩ := v
          have hlen := matchPair_length hm
          simp only [List.length_cons] at h h' hlen
          dsimp only
          rw [ih f' rest (by omega) (by omega)]
        | none =>
          simp only [List.length_cons] at h h'
          dsimp only
          exact ih f' r (by omega) (by omega)

/-- Model of `re.findall(point_pattern, text)` from `detect.py`: the list of
captured `(y_str, x_str)` pairs of every leftmost non-overlapping match. -/
def findall (l : List Char) : List (List Char × List Char) :=
  findallF l.length l

theorem findall_nil : findall [] = [] := rfl

theorem findall_cons_some {c : Char} {r : List Char}
    {pr : List Char × List Char} {rest : List Char}
    (h : matchPair (c :: r) = some (pr, rest)) :
    findall (c :: r) = pr :: findall rest := by
  have hlen := matchPair_length h
  simp only [List.length_cons] at hlen
  unfold findall
  simp only [List.length_cons, findallF, h]
  rw [findallF_fuel r.length rest.length rest (by omega) (by omega)]

theorem findall_cons_none {c : Char} {r : List Char}
    (h : matchPair (c :: r) = none) :
    findall (c :: r) = findall r := by
  unfold findall
  simp only [List.length_cons, findallF, h]

theorem matchPair_cons_ne {c : Char} {r : List Char} (h : ¬ c = '[') :
    matchPair (c :: r) = none := by
  simp [matchPair, h]

/-- A stretch of text containing no `[` contributes no matches. -/
theorem findall_filler {f : List Char} (rest : List Char)
    (h : '[' ∉ f) : findall (f ++ rest) = findall rest := by
  induction f with
  | nil => simp
  | cons c f ih =>
    have hc : ¬ c = '[' := fun he => h (by simp [he])
    have ih' := ih (fun hm => h (by simp [hm]))
    simp only [List.cons_append]
    rw [findall_cons_none (matchPair_cons_ne hc), ih']

theorem ws_not_digit {c : Char} (h : isWsChar c = true) : c.isDigit = false := by
  simp only [isWsChar, Bool.or_eq_true, decide_eq_true_eq] at h
  rcases h with ((((h | h) | h) | h) | h) | h <;> subst h <;> decide

theorem ws_ne_dot {c : Char} (h : isWsChar c = true) : c ≠ '.' := by
  simp only [isWsChar, Bool.or_eq_true, decide_eq_true_eq] at h
  rcases h with ((((h | h) | h) | h) | h) | h <;> subst h <;> decide

theorem digit_not_ws {c : Char} (h : c.isDigit = true) : isWsChar c = false := by
  cases hw : isWsChar c
  · rfl
  · rw [ws_not_digit hw] at h
    cases h

/-- Decimal value of a digit string, as Python's `int`/`float` parse of
a run of digits (most significant first). -/
def natOfDigits (ds : List Char) : ℕ :=
  ds.foldl (fun n c => 10 * n + (c.toNat - '0'.toNat)) 0

/-- Model of `float(s)` from `detect.py`'s parsing loop, restricted to the
capture-group grammar `\d+(\.\d+)?` (the only strings it is ever applied
to there; on them CPython's `float` returns exactly this decimal value,
idealised as a rational).  Any string outside the grammar is mapped to
`none`, modelling a `ValueError`. -/
def pyFloat? (s : List Char) : Option ℚ :=
  let t := wsplit Char.isDigit s
  if t.1 = [] then none
  else
    match t.2 with
    | [] => some (natOfDigits t.1)
    | '.' :: f =>
      if f = [] then none
      else if f.all Char.isDigit then
        some ((natOfDigits t.1 : ℚ) + (natOfDigits f : ℚ) / 10 ^ f.length)
      else none
    | _ => none

/-- The point list behind `buildings_data` in `detect.py`: every regex match,
with both captured groups converted by `float`, matches whose numbers
fail to convert being silently dropped. -/
def parse_points (text : List Char) : List (ℚ × ℚ) :=
  (findall text).filterMap (fun pr =>
    match pyFloat? pr.1, pyFloat? pr.2 with
    | some y, some x => some (y, x)
    | _, _ => none)

/-- A well-formed numeric literal `\d+(\.\d+)?`: a first digit, further
digits, and an optional fractional part with at least one digit. -/
structure NumLit where
  d0 : Char
  ds : List Char
  fr : Option (Char × List Char)
  d0_digit : d0.isDigit = true
  ds_digit : ∀ c ∈ ds, c.isDigit = true
  fr_digit : ∀ c cs, fr = some (c, cs) → c.isDigit = true ∧ ∀ x ∈ cs, x.isDigit = true

def NumLit.frChars (n : NumLit) : List Char :=
  match n.fr with
  | none => []
  | some (c, cs) => '.' :: c :: cs

def NumLit.chars (n : NumLit) : List Char :=
  n.d0 :: (n.ds ++ n.frChars)

/-- The exact decimal value of a well-formed numeric literal. -/
def NumLit.val (n : NumLit) : ℚ :=
  match n.fr with
  | none => natOfDigits (n.d0 :: n.ds)
  | some (c, cs) =>
    (natOfDigits (n.d0 :: n.ds) : ℚ) + (natOfDigits (c :: cs) : ℚ) / 10 ^ (c :: cs).length

theorem NumLit.chars_all_digit_int (n : NumLit) : ∀ c ∈ n.d0 :: n.ds, c.isDigit = true := by
  intro c hc
  rcases List.mem_cons.mp hc with h | h
  · subst h; exact n.d0_digit
  · exact n.ds_digit c h

theorem pyFloat_chars (n : NumLit) : pyFloat? n.chars = some n.val := by
  cases hfr : n.fr with
  | none =>
    have hc : n.chars = (n.d0 :: n.ds) ++ [] := by
      simp [NumLit.chars, NumLit.frChars, hfr]
    rw [hc]
    unfold pyFloat?
    rw [wsplit_append Char.isDigit (n.d0 :: n.ds) [] n.chars_all_digit_int
        (fun c r h => by simp at h)]
    dsimp only
    rw [if_neg (by simp)]
    simp [NumLit.val, hfr]
  | some pr =>
    obtain ⟨c0, cs⟩ := pr
    obtain ⟨hc0, hcs⟩ := n.fr_digit c0 cs hfr
    have hall : (c0 :: cs).all Char.isDigit = true := by
      simp only [List.all_eq_true, decide_eq_true_eq]
      intro x hx
      rcases List.mem_cons.mp hx with h | h
      · subst h; exact hc0
      · exact hcs x h
    have hc : n.chars = (n.d0 :: n.ds) ++ ('.' :: c0 :: cs) := by
      simp [NumLit.chars, NumLit.frChars, hfr]
    rw [hc]
    unfold pyFloat?
    rw [wsplit_append Char.isDigit (n.d0 :: n.ds) ('.' :: c0 :: cs) n.chars_all_digit_int
        (by intro c r h; injection h with h1 h2; rw [← h1]; decide)]
    dsimp only
    rw [if_neg (by simp)]
    split
    · rename_i heq
      simp at heq
    · rename_i f heq
      injection heq with h1 h2
      subst h2
      rw [if_neg (by simp), if_pos hall]
      simp [NumLit.val, hfr]
    · rename_i x hne1 hne2
      exact absurd rfl (hne2 (c0 :: cs))

theorem matchNum_chars (n : NumLit) (rest : List Char)
    (hrest : ∀ c r, rest = c :: r → c.isDigit = false ∧ c ≠ '.') :
    matchNum (n.chars ++ rest) = some (n.chars, rest) := by
  cases hfr : n.fr with
  | none =>
    have hc : n.chars = n.d0 :: n.ds := by simp [NumLit.chars, NumLit.frChars, hfr]
    rw [hc]
    unfold matchNum
    rw [wsplit_append Char.isDigit (n.d0 :: n.ds) rest
        (hc ▸ n.chars_all_digit_int) (fun c r h => (hrest c r h).1)]
    dsimp only
    rw [if_neg (by simp)]
    split
    next r2 heq =>
      exact absurd rfl (hrest '.' _ rfl).2
    next => rfl
  | some pr =>
    obtain ⟨c0, cs⟩ := pr
    obtain ⟨hc0, hcs⟩ := n.fr_digit c0 cs hfr
    have hall : ∀ c ∈ c0 :: cs, c.isDigit = true := by
      intro x hx
      rcases List.mem_cons.mp hx with h | h
      · subst h; exact hc0
      · exact hcs x h
    have hc : n.chars ++ rest = (n.d0 :: n.ds) ++ ('.' :: ((c0 :: cs) ++ rest)) := by
      simp [NumLit.chars, NumLit.frChars, hfr]
    rw [hc]
    unfold matchNum
    rw [wsplit_append Char.isDigit (n.d0 :: n.ds) ('.' :: ((c0 :: cs) ++ rest))
        n.chars_all_digit_int
        (by intro c r h; injection h with h1 h2; rw [← h1]; decide)]
    dsimp only
    rw [if_neg (by simp)]
    split
    · rename_i r2 heq
      injection heq with h1 h2
      rw [← h2]
      rw [wsplit_append Char.isDigit (c0 :: cs) rest hall
          (fun c r h => (hrest c r h).1)]
      dsimp only
      rw [if_neg (by simp)]
      simp [NumLit.chars, NumLit.frChars, hfr]
    · rename_i x hne
      exact absurd rfl (hne ((c0 :: cs) ++ rest))

/-- A run of whitespace, as matched by an inner `\s*` of the pattern. -/
structure WsRun where
  chars : List Char
  ws : ∀ c ∈ chars, isWsChar c = true

/-- A well-formed coordinate substring
`[` `\s*` number `\s*` `,` `\s*` number `\s*` `]`. -/
structure PairChunk where
  w1 : WsRun
  w2 : WsRun
  w3 : WsRun
  w4 : WsRun
  yn : NumLit
  xn : NumLit

def PairChunk.chars (pc : PairChunk) : List Char :=
  '[' :: (pc.w1.chars ++ (pc.yn.chars ++ (pc.w2.chars ++
    (',' :: (pc.w3.chars ++ (pc.xn.chars ++ (pc.w4.chars ++ [']'])))))))

theorem headSafe_ws_append {w : List Char} (hw : ∀ c ∈ w, isWsChar c = true)
    {d : Char} (hd : d.isDigit = false ∧ d ≠ '.') (t : List Char) :
    ∀ c r, (w ++ d :: t) = c :: r → c.isDigit = false ∧ c ≠ '.' := by
  intro c r he
  cases w with
  | nil =>
    simp only [List.nil_append] at he
    injection he with h1 h2
    rw [← h1]
    exact hd
  | cons a w =>
    simp only [List.cons_append] at he
    injection he with h1 h2
    rw [← h1]
    have ha := hw a (by simp)
    exact ⟨ws_not_digit ha, ws_ne_dot ha⟩

theorem headNot_ws_of_num (n : NumLit) (t : List Char) :
    ∀ c r, (n.chars ++ t) = c :: r → isWsChar c = false := by
  intro c r he
  simp only [NumLit.chars, List.cons_append] at he
  injection he with h1 h2
  rw [← h1]
  exact digit_not_ws n.d0_digit

theorem matchPair_chars (pc : PairChunk) (rest : List Char) :
    matchPair (pc.chars ++ rest) = some ((pc.yn.chars, pc.xn.chars), rest) := by
  have e0 : pc.chars ++ rest =
      '[' :: (pc.w1.chars ++ ((pc.yn.chars ++ (pc.w2.chars ++
        (',' :: (pc.w3.chars ++ ((pc.xn.chars ++ (pc.w4.chars ++ (']' :: rest)))))))))) := by
    simp [PairChunk.chars]
  rw [e0]
  simp only [matchPair, if_true]
  rw [wsplit_append isWsChar pc.w1.chars _ pc.w1.ws
      (headNot_ws_of_num pc.yn _)]
  dsimp only
  rw [matchNum_chars pc.yn _
      (headSafe_ws_append pc.w2.ws (by decide) _)]
  dsimp only
  rw [wsplit_append isWsChar pc.w2.chars _ pc.w2.ws
      (by intro c r h; injection h with h1 h2; rw [← h1]; decide)]
  dsimp only
  split
  next r4 heq =>
    injection heq with h1 h2
    rw [← h2]
    rw [wsplit_append isWsChar pc.w3.chars _ pc.w3.ws
        (headNot_ws_of_num pc.xn _)]
    dsimp only
    rw [matchNum_chars pc.xn _
        (headSafe_ws_append pc.w4.ws (by decide) _)]
    dsimp only
    rw [wsplit_append isWsChar pc.w4.chars _ pc.w4.ws
        (by intro c r h; injection h with h1 h2; rw [← h1]; decide)]
    dsimp only
    split
    next r8 heq2 =>
      injection heq2 with g1 g2
      rw [← g2]
    next hne =>
      exact absurd rfl (hne rest)
  next hne =>
    exact absurd rfl (hne (pc.w3.chars ++ (pc.xn.chars ++ (pc.w4.chars ++ (']' :: rest)))))

/-- A response text that consists of `k` well-formed coordinate
substrings separated by filler text containing no `[` (hence containing
no coordinate-shaped substrings, well- or mal-formed): leading filler
`f0`, then each chunk followed by its trailing filler. -/
def interleave (f0 : List Char) (chunks : List (PairChunk × List Char)) : List Char :=
  match chunks with
  | [] => f0
  | (pc, f) :: rest => f0 ++ (pc.chars ++ interleave f rest)

theorem findall_no_bracket {f : List Char} (h : '[' ∉ f) : findall f = [] := by
  have := findall_filler [] h
  simpa using this

theorem findall_interleave (f0 : List Char) (chunks : List (PairChunk × List Char))
    (h0 : '[' ∉ f0) (h : ∀ pr ∈ chunks, '[' ∉ pr.2) :
    findall (interleave f0 chunks) =
      chunks.map (fun pr => (pr.1.yn.chars, pr.1.xn.chars)) := by
  induction chunks generalizing f0 with
  | nil => simpa [interleave] using findall_no_bracket h0
  | cons pr rest ih =>
    obtain ⟨pc, f⟩ := pr
    have hmatch := matchPair_chars pc (interleave f rest)
    have e1 : pc.chars ++ interleave f rest =
        '[' :: ((pc.w1.chars ++ (pc.yn.chars ++ (pc.w2.chars ++
          (',' :: (pc.w3.chars ++ (pc.xn.chars ++ (pc.w4.chars ++ [']'])))))))
          ++ interleave f rest) := by
      simp [PairChunk.chars]
    rw [interleave, findall_filler _ h0, e1,
        findall_cons_some (e1 ▸ hmatch)]
    have hf : '[' ∉ f := h (pc, f) (by simp)
    have hrest : ∀ pr ∈ rest, '[' ∉ pr.2 := fun pr hpr => h pr (by simp [hpr])
    rw [ih f hf hrest]
    simp

theorem parse_points_interleave (f0 : List Char)
    (chunks : List (PairChunk × List Char))
    (h0 : '[' ∉ f0) (h : ∀ pr ∈ chunks, '[' ∉ pr.2) :
    parse_points (interleave f0 chunks) =
      chunks.map (fun pr => (pr.1.yn.val, pr.1.xn.val)) := by
  unfold parse_points
  rw [findall_interleave f0 chunks h0 h]
  induction chunks with
  | nil => rfl
  | cons pr rest ih =>
    simp only [List.map_cons, List.filterMap_cons, pyFloat_chars]
    rw [ih (fun q hq => h q (by simp [hq]))]

/-- The constant `alphabet = "ABCDEFGHIJKLMNOPQRSTUVWXYZ"` from `detect.py`. -/
def alphabet : List Char := "ABCDEFGHIJKLMNOPQRSTUVWXYZ".toList

/-- The label computed for 0-indexed position `i` in the sorted point
list: `alphabet[i]` when `i < 26`, otherwise
`alphabet[(i // 26) - 1] + alphabet[i % 26]`.  Indexing out of range
(Python `IndexError`) is modelled by `none`. -/
def labelFor (i : Nat) : Option String :=
  if i < 26 then
    (alphabet.get? i).map (fun c => String.mk [c])
  else
    match alphabet.get? (i / 26 - 1), alphabet.get? (i % 26) with
    | some c1, some c2 => some (String.mk [c1, c2])
    | _, _ => none

theorem alphabet_length : alphabet.length = 26 := rfl

theorem labelFor_isSome_iff (i : Nat) : (labelFor i).isSome = true ↔ i < 702 := by
  unfold labelFor
  by_cases h : i < 26
  · have hlen : i < alphabet.length := by rw [alphabet_length]; omega
    rw [if_pos h]
    simp only [List.get?_eq_getElem?, List.getElem?_eq_getElem hlen]
    constructor
    · intro _
      omega
    · intro _
      simp
  · rw [if_neg h]
    have hmod : i % 26 < alphabet.length := by
      rw [alphabet_length]; exact Nat.mod_lt _ (by omega)
    have hdiv_iff : i / 26 - 1 < 26 ↔ i < 702 := by
      constructor
      · intro hd
        have h27 : i / 26 < 27 := by omega
        have := (Nat.div_lt_iff_lt_mul (by omega : 0 < 26)).mp h27
        omega
      · intro hd
        have h27 : i / 26 < 27 := (Nat.div_lt_iff_lt_mul (by omega : 0 < 26)).mpr (by omega)
        omega
    by_cases hd : i / 26 - 1 < 26
    · have hd2 : i / 26 - 1 < alphabet.length := by rw [alphabet_length]; exact hd
      simp only [List.get?_eq_getElem?, List.getElem?_eq_getElem hd2,
        List.getElem?_eq_getElem hmod]
      simpa using hdiv_iff.mp hd
    · have hd2 : alphabet.length ≤ i / 26 - 1 := by rw [alphabet_length]; omega
      simp only [List.get?_eq_getElem?, List.getElem?_eq_none hd2]
      constructor
      · intro hc
        simp at hc
      · intro hlt
        exact absurd (hdiv_iff.mpr hlt) hd

/-- Round-half-to-even to an integer, the rounding rule of Python's
built-in `round`.  (CPython rounds the IEEE-754 double; on the exact
two-decimal quantities this development evaluates it on, the idealised
rational rounding below coincides with it.) -/
def roundHalfEven (q : ℚ) : ℤ :=
  let d : ℤ := (q.den : ℤ)
  let f : ℤ := Int.fdiv q.num d
  let r : ℤ := q.num - f * d
  if 2 * r < d then f
  else if d < 2 * r then f + 1
  else if f % 2 = 0 then f else f + 1

/-- Python `round(x, 2)` as used in `detect.py`. -/
def round2 (q : ℚ) : ℚ := (roundHalfEven (q * 100) : ℚ) / 100

/-- The assignment `yaw = (norm_x / 1000.0) * 360.0 - 180.0` from `detect.py`. -/
def yawOf (x : ℚ) : ℚ := x / 1000 * 360 - 180

/-- The assignment `pitch = 90.0 - (norm_y / 1000.0) * 180.0` from `detect.py`. -/
def pitchOf (y : ℚ) : ℚ := 90 - y / 1000 * 180

/-- One entry of `buildings_data`: the dictionary appended per point. -/
structure Hotspot where
  id : String
  label : String
  yaw : ℚ
  pitch : ℚ
  y_norm : ℚ
  x_norm : ℚ
deriving DecidableEq, Repr

/-- The dictionary built for the point at 0-indexed position `i` of the
sorted list; `none` models the `IndexError` from label generation. -/
def mkHotspot (i : Nat) (p : ℚ × ℚ) : Option Hotspot :=
  (labelFor i).map (fun lab =>
    { id := toString i
      label := lab
      yaw := round2 (yawOf p.2)
      pitch := round2 (pitchOf p.1)
      y_norm := p.1
      x_norm := p.2 })

/-- Model of the `for i, (norm_y, norm_x) in enumerate(points)` loop of
`detect.py`, starting at index `i`; aborts (models the uncaught
exception) as soon as one position fails. -/
def buildLoop (i : Nat) (pts : List (ℚ × ℚ)) : Option (List Hotspot) :=
  match pts with
  | [] => some []
  | p :: r =>
    match mkHotspot i p with
    | none => none
    | some h =>
      match buildLoop (i + 1) r with
      | none => none
      | some t => some (h :: t)

/-- The Boolean key order used by `points.sort(key=lambda p: p[1])`. -/
def xle (p q : ℚ × ℚ) : Bool := decide (p.2 ≤ q.2)

/-- Stable insertion of a point into an already sorted list: the new
element goes in front of the first element it is `xle`-below-or-equal. -/
def insertPt (a : ℚ × ℚ) : List (ℚ × ℚ) → List (ℚ × ℚ)
  | [] => [a]
  | b :: r => if xle a b then a :: b :: r else b :: insertPt a r

/-- Model of `points.sort(key=lambda p: p[1])` in `detect.py`.  CPython's
`list.sort` is a stable sort by the key order; it is embedded as the
stable insertion sort below, which is proved equal to `List.mergeSort`
(`sortPoints_eq_mergeSort`) — for a total preorder all stable sorts
agree, so the embedding is exact. -/
def sortPoints : List (ℚ × ℚ) → List (ℚ × ℚ)
  | [] => []
  | a :: r => insertPt a (sortPoints r)

/-- Sorting followed by the labelling loop: everything `detect.py` does
to the parsed point list. -/
def buildHotspots (pts : List (ℚ × ℚ)) : Option (List Hotspot) :=
  buildLoop 0 (sortPoints pts)

/-- Opaque token standing for a decoded-and-thumbnailed `PIL` image. -/
structure Image where
  tag : Nat
deriving DecidableEq

/-- One `client.models.generate_content` invocation, recorded with the
model name and both arguments (`contents=[prompt_text, ai_img]`). -/
structure ModelCall where
  model : String
  image : Image
  prompt : List Char
deriving DecidableEq

def primaryModel : String := "gemini-3-pro-image-preview"

def backupModel : String := "gemini-3-pro-preview"

/-- The `try/except` cascade of `detect.py`: call the primary model;
if it raises (`gen` returns `none`), call the backup model with the
same contents; if that raises too, give up.  The second component is
the trace of model invocations actually made. -/
def invokeWithFallback (gen : String → Image → List Char → Option (List Char))
    (img : Image) (prompt : List Char) :
    Option (List Char) × List ModelCall :=
  match gen primaryModel img prompt with
  | some t => (some t, [⟨primaryModel, img, prompt⟩])
  | none =>
    match gen backupModel img prompt with
    | some t => (some t, [⟨primaryModel, img, prompt⟩, ⟨backupModel, img, prompt⟩])
    | none => (none, [⟨primaryModel, img, prompt⟩, ⟨backupModel, img, prompt⟩])

/-- Model of `analyze_panorama` from `detect.py`.  Here `openResult` is the outcome of
`PIL.Image.open` + `thumbnail` (`none` = decode failure); `gen` is the
external model as an oracle from (model name, image, prompt) to response
text (`none` = the call raises); the text of a successful response is
the concatenation of its textual parts.  The result pairs the returned
value (`none` = an uncaught exception, `some l` = the returned list)
with the trace of model calls. -/
def analyze_panorama (openResult : Option Image)
    (gen : String → Image → List Char → Option (List Char))
    (prompt : List Char) : Option (List Hotspot) × List ModelCall :=
  match openResult with
  | none => (some [], [])
  | some img =>
    let ic := invokeWithFallback gen img prompt
    match ic.1 with
    | none => (some [], ic.2)
    | some text =>
      if text = [] then (some [], ic.2)
      else
        let pts := parse_points text
        if pts = [] then (some [], ic.2)
        else
          match buildHotspots pts with
          | none => (none, ic.2)
          | some hs => (some hs, ic.2)

/-- JSON values as stored in the per-session files of `app.py`.
Numbers are exact rationals: `json.dump` followed by `json.load`
round-trips every float bit-for-bit (shortest-repr serialisation), so a
file is modelled as holding the parsed JSON value itself; every
two-decimal rounded float is exactly representable here. -/
inductive Json where
  | null : Json
  | bool (b : Bool) : Json
  | num (q : ℚ) : Json
  | str (s : String) : Json
  | arr (items : List Json) : Json
  | obj (fields : List (String × Json)) : Json

/-- The `static/processed` directory keyed by session id: for each id,
the parsed content of `{id}.json` if that file exists. -/
def Store : Type := String → Option Json

/-- Model of `save_data` from `app.py` (`/api/save/<id>`): writes the posted
JSON, replacing any previous file for that id. -/
def save_data (fs : Store) (id : String) (data : Json) : Store :=
  fun k => if k = id then some data else fs k

/-- Model of `get_data` from `app.py` (`/api/data/<id>`): the parsed file
content if the file exists, otherwise the JSON empty list. -/
def get_data (fs : Store) (id : String) : Json :=
  match fs id with
  | some j => j
  | none => Json.arr []

/-- Serialisation of one hotspot dictionary to JSON, with the field
layout `detect.py` writes and the editor posts back. -/
def encodeHotspot (h : Hotspot) : Json :=
  Json.obj [("id", Json.str h.id), ("label", Json.str h.label),
    ("yaw", Json.num h.yaw), ("pitch", Json.num h.pitch),
    ("y_norm", Json.num h.y_norm), ("x_norm", Json.num h.x_norm)]

def encodeHotspots (hs : List Hotspot) : Json :=
  Json.arr (hs.map encodeHotspot)

/-- Reading one hotspot dictionary back from its JSON form. -/
def decodeHotspot : Json → Option Hotspot
  | Json.obj [("id", Json.str i), ("label", Json.str l), ("yaw", Json.num yw),
      ("pitch", Json.num pt), ("y_norm", Json.num yn), ("x_norm", Json.num xn)] =>
    some { id := i, label := l, yaw := yw, pitch := pt, y_norm := yn, x_norm := xn }
  | _ => none

def decodeHotspotList : List Json → Option (List Hotspot)
  | [] => some []
  | j :: r =>
    match decodeHotspot j, decodeHotspotList r with
    | some h, some t => some (h :: t)
    | _, _ => none

def decodeHotspots : Json → Option (List Hotspot)
  | Json.arr items => decodeHotspotList items
  | _ => none

theorem xle_trans : ∀ a b c : ℚ × ℚ, xle a b → xle b c → xle a c := by
  intro a b c hab hbc
  simp only [xle, decide_eq_true_eq] at *
  exact le_trans hab hbc

theorem xle_total : ∀ a b : ℚ × ℚ, xle a b || xle b a := by
  intro a b
  simp only [xle, Bool.or_eq_true, decide_eq_true_eq]
  exact le_total _ _

theorem insertPt_append {a : ℚ × ℚ} {l₁ l₂ : List (ℚ × ℚ)}
    (h1 : ∀ b ∈ l₁, xle a b = false)
    (h2 : ∀ c ∈ l₂, xle a c = true) :
    insertPt a (l₁ ++ l₂) = l₁ ++ a :: l₂ := by
  induction l₁ with
  | nil =>
    cases l₂ with
    | nil => rfl
    | cons c r => simp [insertPt, h2 c (by simp)]
  | cons b l₁ ih =>
    have hb : xle a b = false := h1 b (by simp)
    rw [List.cons_append, insertPt, hb, if_neg (by simp)]
    rw [ih (fun x hx => h1 x (by simp [hx]))]
    simp

theorem sortPoints_eq_mergeSort (l : List (ℚ × ℚ)) :
    sortPoints l = l.mergeSort xle := by
  induction l with
  | nil => simp [sortPoints]
  | cons a r ih =>
    obtain ⟨l₁, l₂, h1, h2, h3⟩ := List.mergeSort_cons xle_trans xle_total a r
    have hsorted := List.sorted_mergeSort xle_trans xle_total (a :: r)
    rw [h1] at hsorted
    have hsplit := List.pairwise_append.mp hsorted
    have hl2 : ∀ c ∈ l₂, xle a c = true :=
      fun c hc => (List.pairwise_cons.mp hsplit.2.1).1 c hc
    have hl1 : ∀ b ∈ l₁, xle a b = false := by
      intro b hb
      have := h3 b hb
      simpa using this
    rw [sortPoints, ih, h2, h1, insertPt_append hl1 hl2]

theorem length_insertPt (a : ℚ × ℚ) (l : List (ℚ × ℚ)) :
    (insertPt a l).length = l.length + 1 := by
  induction l with
  | nil => rfl
  | cons b r ih =>
    by_cases h : xle a b = true
    · simp [insertPt, h]
    · simp [insertPt, h, ih]

theorem length_sortPoints (l : List (ℚ × ℚ)) :
    (sortPoints l).length = l.length := by
  induction l with
  | nil => rfl
  | cons a r ih => simp [sortPoints, length_insertPt, ih]

theorem mkHotspot_isSome (i : Nat) (p : ℚ × ℚ) :
    (mkHotspot i p).isSome = (labelFor i).isSome := by
  unfold mkHotspot
  cases labelFor i <;> rfl

theorem buildLoop_isSome_iff (i : Nat) (pts : List (ℚ × ℚ)) :
    (buildLoop i pts).isSome = true ↔
      ∀ j, j < pts.length → (labelFor (i + j)).isSome = true := by
  induction pts generalizing i with
  | nil => simp [buildLoop]
  | cons p r ih =>
    rw [buildLoop]
    cases hm : mkHotspot i p with
    | none =>
      have hl : (labelFor i).isSome = false := by
        rw [← mkHotspot_isSome i p, hm]
        rfl
      constructor
      · intro hc
        simp at hc
      · intro hall
        have h0 := hall 0 (by simp)
        rw [Nat.add_zero] at h0
        rw [hl] at h0
        cases h0
    | some h0 =>
      have hl : (labelFor i).isSome = true := by
        rw [← mkHotspot_isSome i p, hm]
        rfl
      have e : (match buildLoop (i + 1) r with
          | none => none
          | some t => some (h0 :: t)).isSome = (buildLoop (i + 1) r).isSome := by
        cases buildLoop (i + 1) r <;> rfl
      rw [e, ih (i + 1)]
      constructor
      · intro hall j hj
        cases j with
        | zero => simpa using hl
        | succ j =>
          rw [show i + (j + 1) = i + 1 + j by omega]
          exact hall j (by simp at hj; omega)
      · intro hall j hj
        rw [show i + 1 + j = i + (j + 1) by omega]
        exact hall (j + 1) (by simp; omega)

theorem buildLoop_spec (i : Nat) (pts : List (ℚ × ℚ)) (hs : List Hotspot)
    (h : buildLoop i pts = some hs) :
    hs.map (fun x => (x.y_norm, x.x_norm)) = pts
    ∧ ∀ j (hj : j < hs.length),
        (hs.get ⟨j, hj⟩).id = toString (i + j)
        ∧ labelFor (i + j) = some (hs.get ⟨j, hj⟩).label
        ∧ (hs.get ⟨j, hj⟩).yaw = round2 (yawOf (hs.get ⟨j, hj⟩).x_norm)
        ∧ (hs.get ⟨j, hj⟩).pitch = round2 (pitchOf (hs.get ⟨j, hj⟩).y_norm) := by
  induction pts generalizing i hs with
  | nil =>
    simp only [buildLoop, Option.some.injEq] at h
    subst h
    refine ⟨rfl, ?_⟩
    intro j hj
    simp at hj
  | cons p r ih =>
    rw [buildLoop] at h
    cases hm : mkHotspot i p with
    | none => rw [hm] at h; cases h
    | some h0 =>
      rw [hm] at h
      cases hb : buildLoop (i + 1) r with
      | none => rw [hb] at h; cases h
      | some t =>
        rw [hb] at h
        simp only [Option.some.injEq] at h
        subst h
        obtain ⟨lab, hlab, hh0⟩ := Option.map_eq_some'.mp hm
        obtain ⟨ih1, ih2⟩ := ih (i + 1) t hb
        constructor
        · rw [List.map_cons, ih1, ← hh0]
        · intro j hj
          cases j with
          | zero =>
            subst hh0
            simp [hlab]
          | succ j =>
            have hj' : j < t.length := by simp at hj; omega
            have := ih2 j hj'
            have hg : (h0 :: t).get ⟨j + 1, hj⟩ = t.get ⟨j, hj'⟩ := rfl
            rw [hg, show i + (j + 1) = i + 1 + j by omega]
            exact this

theorem buildHotspots_isSome_iff (pts : List (ℚ × ℚ)) :
    (buildHotspots pts).isSome = true ↔ pts.length ≤ 702 := by
  unfold buildHotspots
  rw [buildLoop_isSome_iff]
  constructor
  · intro hall
    by_contra hlen
    have h702 := hall 702 (by rw [length_sortPoints]; omega)
    rw [labelFor_isSome_iff] at h702
    omega
  · intro hlen j hj
    rw [length_sortPoints] at hj
    rw [labelFor_isSome_iff]
    omega

theorem sortPoints_pairwise (pts : List (ℚ × ℚ)) :
    (sortPoints pts).Pairwise (fun p q => p.2 ≤ q.2) := by
  rw [sortPoints_eq_mergeSort]
  have h := List.sorted_mergeSort xle_trans xle_total pts
  exact h.imp (fun hxy => by simpa [xle] using hxy)

theorem sortPoints_stable (pts : List (ℚ × ℚ)) (p q : ℚ × ℚ)
    (hle : p.2 ≤ q.2) (hsub : List.Sublist [p, q] pts) :
    List.Sublist [p, q] (sortPoints pts) := by
  rw [sortPoints_eq_mergeSort]
  exact List.pair_sublist_mergeSort xle_trans xle_total
    (by simpa [xle] using hle) hsub

theorem roundHalfEven_intCast (n : ℤ) : roundHalfEven (n : ℚ) = n := by
  unfold roundHalfEven
  dsimp only
  rw [Rat.num_intCast, Rat.den_intCast]
  norm_num [Int.fdiv_one]

theorem round2_exact {q : ℚ} {n : ℤ} (h : q * 100 = (n : ℚ)) :
    round2 q = (n : ℚ) / 100 := by
  unfold round2
  rw [h, roundHalfEven_intCast]

/-- C1: for every 0-indexed position `i` of the sorted point list, the
generated label is the single letter `alphabet[i]` when `i < 26` and
`alphabet[(i // 26) - 1] + alphabet[i % 26]` otherwise; in particular
positions 26, 27, 51 and 52 get `AA`, `AB`, `AZ` and `BA`, and every
hotspot list the pipeline produces carries exactly these labels. -/
theorem label_rule :
    (∀ i, i < 26 → ∃ c, alphabet.get? i = some c ∧ labelFor i = some (String.mk [c]))
    ∧ (∀ i, 26 ≤ i → i < 702 → ∃ c1 c2,
        alphabet.get? (i / 26 - 1) = some c1 ∧ alphabet.get? (i % 26) = some c2
        ∧ labelFor i = some (String.mk [c1, c2]))
    ∧ labelFor 26 = some "AA" ∧ labelFor 27 = some "AB"
    ∧ labelFor 51 = some "AZ" ∧ labelFor 52 = some "BA"
    ∧ (∀ pts hs, buildHotspots pts = some hs →
        ∀ i (hi : i < hs.length), labelFor i = some (hs.get ⟨i, hi⟩).label) := by
  refine ⟨?_, ?_, by decide, by decide, by decide, by decide, ?_⟩
  · intro i hi
    have hlen : i < alphabet.length := by rw [alphabet_length]; omega
    refine ⟨alphabet.get ⟨i, hlen⟩, ?_, ?_⟩
    · simp [List.get?_eq_getElem?, List.getElem?_eq_getElem hlen]
    · unfold labelFor
      rw [if_pos hi]
      simp [List.get?_eq_getElem?, List.getElem?_eq_getElem hlen]
  · intro i h26 h702
    have hdiv : i / 26 - 1 < alphabet.length := by
      rw [alphabet_length]
      have h27 : i / 26 < 27 := (Nat.div_lt_iff_lt_mul (by omega : 0 < 26)).mpr (by omega)
      omega
    have hmod : i % 26 < alphabet.length := by
      rw [alphabet_length]; exact Nat.mod_lt _ (by omega)
    refine ⟨alphabet.get ⟨i / 26 - 1, hdiv⟩, alphabet.get ⟨i % 26, hmod⟩, ?_, ?_, ?_⟩
    · simp [List.get?_eq_getElem?, List.getElem?_eq_getElem hdiv]
    · simp [List.get?_eq_getElem?, List.getElem?_eq_getElem hmod]
    · unfold labelFor
      rw [if_neg (by omega)]
      simp [List.get?_eq_getElem?, List.getElem?_eq_getElem hdiv,
        List.getElem?_eq_getElem hmod]
  · intro pts hs h i hi
    unfold buildHotspots at h
    have := (buildLoop_spec 0 (sortPoints pts) hs h).2 i hi
    simpa using this.2.1

/-- Witness for C1 at concrete positions and one concrete pipeline run. -/
theorem label_rule_witness :
    (∃ c, alphabet.get? 3 = some c ∧ labelFor 3 = some (String.mk [c]))
    ∧ (∃ c1 c2, alphabet.get? (100 / 26 - 1) = some c1
        ∧ alphabet.get? (100 % 26) = some c2
        ∧ labelFor 100 = some (String.mk [c1, c2])) :=
  ⟨label_rule.1 3 (by decide), label_rule.2.1 100 (by decide) (by decide)⟩

/-- C2: label generation is total exactly for positions 0..701; the
first failing position is 702 (`(702 // 26) - 1 = 26` indexes past the
26-letter alphabet), so a run whose parsed point list has more than 702
points raises there and returns no list. -/
theorem label_totality :
    labelFor 702 = none
    ∧ (∀ i, i < 702 → (labelFor i).isSome = true)
    ∧ (∀ pts : List (ℚ × ℚ), 702 < pts.length → buildHotspots pts = none)
    ∧ (∀ pts : List (ℚ × ℚ), pts.length ≤ 702 → (buildHotspots pts).isSome = true)
    ∧ (∀ (img : Image) (gen : String → Image → List Char → Option (List Char))
        (prompt text : List Char),
        gen primaryModel img prompt = some text →
        702 < (parse_points text).length →
        (analyze_panorama (some img) gen prompt).1 = none) := by
  have hnone : ∀ pts : List (ℚ × ℚ), 702 < pts.length → buildHotspots pts = none := by
    intro pts hlen
    have := buildHotspots_isSome_iff pts
    cases hb : buildHotspots pts with
    | none => rfl
    | some hs =>
      rw [hb] at this
      simp at this
      omega
  refine ⟨by decide, ?_, hnone, ?_, ?_⟩
  · intro i hi
    rw [labelFor_isSome_iff]
    exact hi
  · intro pts hlen
    rw [buildHotspots_isSome_iff]
    exact hlen
  · intro img gen prompt text hgen hlen
    unfold analyze_panorama
    dsimp only
    unfold invokeWithFallback
    rw [hgen]
    dsimp only
    have htext : ¬ text = [] := by
      intro he
      subst he
      simp [parse_points, findall_nil] at hlen
    rw [if_neg htext]
    have hpts : ¬ parse_points text = [] := by
      intro he
      rw [he] at hlen
      simp at hlen
    rw [if_neg hpts, hnone (parse_points text) hlen]

/-- Witness for C2: position 10 succeeds, 703 points fail, one point
succeeds. -/
theorem label_totality_witness :
    (labelFor 10).isSome = true
    ∧ buildHotspots (List.replicate 703 ((0 : ℚ), (0 : ℚ))) = none
    ∧ (buildHotspots [((1 : ℚ), (2 : ℚ))]).isSome = true :=
  ⟨label_totality.2.1 10 (by decide),
   label_totality.2.2.1 _ (by rw [List.length_replicate]; omega),
   label_totality.2.2.2.1 _ (by simp)⟩

/-- C3: a response text consisting of exactly `k` well-formed
`[number, number]` substrings (optionally-decimal non-negative numeric
literals, optional whitespace inside the brackets) separated by filler
free of coordinate-shaped substrings is parsed to exactly `k` pairs,
each the parsed `(y, x)` value, in order of occurrence; `k = 0` gives
`[]` and, the embedding being total, no exception. -/
theorem response_parsing (f0 : List Char) (chunks : List (PairChunk × List Char))
    (h0 : '[' ∉ f0) (h : ∀ pr ∈ chunks, '[' ∉ pr.2) :
    parse_points (interleave f0 chunks) =
      chunks.map (fun pr => (pr.1.yn.val, pr.1.xn.val))
    ∧ (parse_points (interleave f0 chunks)).length = chunks.length := by
  have hmain := parse_points_interleave f0 chunks h0 h
  refine ⟨hmain, ?_⟩
  rw [hmain, List.length_map]

/-- The numeric literal `1`. -/
def nlOne : NumLit where
  d0 := '1'
  ds := []
  fr := none
  d0_digit := by decide
  ds_digit := by simp
  fr_digit := by intro c cs hc; simp at hc

/-- The numeric literal `2`. -/
def nlTwo : NumLit where
  d0 := '2'
  ds := []
  fr := none
  d0_digit := by decide
  ds_digit := by simp
  fr_digit := by intro c cs hc; simp at hc

def wsNone : WsRun where
  chars := []
  ws := by simp

/-- The coordinate substring `[1,2]`. -/
def pcOneTwo : PairChunk where
  w1 := wsNone
  w2 := wsNone
  w3 := wsNone
  w4 := wsNone
  yn := nlOne
  xn := nlTwo

/-- Witness for C3: the text `a[1,2]b` parses to the single pair (1, 2). -/
theorem response_parsing_witness :
    parse_points (interleave ['a'] [(pcOneTwo, ['b'])]) = [((1 : ℚ), (2 : ℚ))]
    ∧ (parse_points (interleave ['a'] [(pcOneTwo, ['b'])])).length = 1 := by
  have h := response_parsing ['a'] [(pcOneTwo, ['b'])] (by decide)
    (by intro pr hpr; simp at hpr; subst hpr; decide)
  have h1 : natOfDigits ['1'] = 1 := by decide
  have h2 : natOfDigits ['2'] = 2 := by decide
  have hv : ([((pcOneTwo : PairChunk), (['b'] : List Char))].map
      (fun pr => (pr.1.yn.val, pr.1.xn.val))) = [((1 : ℚ), (2 : ℚ))] := by
    simp [pcOneTwo, nlOne, nlTwo, NumLit.val, h1, h2]
  rw [hv] at h
  exact h

/-- C4: the persisted angles are `round2` of
`yaw = (x / 1000) * 360 - 180` and `pitch = 90 - (y / 1000) * 180`;
boundary inputs map to ±180 / ±90 / 0 exactly, and out-of-range inputs
are passed through unclamped (e.g. `x = 1500` persists `yaw = 360`). -/
theorem coordinate_mapping :
    round2 (yawOf 0) = -180 ∧ round2 (yawOf 1000) = 180
    ∧ round2 (pitchOf 0) = 90 ∧ round2 (pitchOf 1000) = -90
    ∧ round2 (yawOf 500) = 0 ∧ round2 (pitchOf 500) = 0
    ∧ (∀ (i : Nat) (p : ℚ × ℚ) (h : Hotspot), mkHotspot i p = some h →
        h.yaw = round2 (yawOf p.2) ∧ h.pitch = round2 (pitchOf p.1)
        ∧ h.y_norm = p.1 ∧ h.x_norm = p.2)
    ∧ (∀ x : ℚ, 1000 < x → 180 < yawOf x)
    ∧ (∀ x : ℚ, x < 0 → yawOf x < -180)
    ∧ (∀ y : ℚ, y < 0 → 90 < pitchOf y)
    ∧ (∀ y : ℚ, 1000 < y → pitchOf y < -90)
    ∧ round2 (yawOf 1500) = 360 := by
  refine ⟨?_, ?_, ?_, ?_, ?_, ?_, ?_, ?_, ?_, ?_, ?_, ?_⟩
  · rw [@round2_exact (yawOf 0) (-18000) (by norm_num [yawOf])]
    norm_num
  · rw [@round2_exact (yawOf 1000) 18000 (by norm_num [yawOf])]
    norm_num
  · rw [@round2_exact (pitchOf 0) 9000 (by norm_num [pitchOf])]
    norm_num
  · rw [@round2_exact (pitchOf 1000) (-9000) (by norm_num [pitchOf])]
    norm_num
  · rw [@round2_exact (yawOf 500) 0 (by norm_num [yawOf])]
    norm_num
  · rw [@round2_exact (pitchOf 500) 0 (by norm_num [pitchOf])]
    norm_num
  · intro i p h hm
    obtain ⟨lab, hlab, rfl⟩ := Option.map_eq_some'.mp hm
    exact ⟨rfl, rfl, rfl, rfl⟩
  · intro x hx
    unfold yawOf
    nlinarith
  · intro x hx
    unfold yawOf
    nlinarith
  · intro y hy
    unfold pitchOf
    nlinarith
  · intro y hy
    unfold pitchOf
    nlinarith
  · rw [@round2_exact (yawOf 1500) 36000 (by norm_num [yawOf])]
    norm_num

/-- The hotspot built for the out-of-range point `(y, x) = (500, 1500)`
at position 0. -/
def hsOutOfRange : Hotspot where
  id := "0"
  label := "A"
  yaw := round2 (yawOf 1500)
  pitch := round2 (pitchOf 500)
  y_norm := 500
  x_norm := 1500

/-- Witness for C4 at concrete out-of-range inputs. -/
theorem coordinate_mapping_witness :
    180 < yawOf 2000 ∧ yawOf (-1) < -180 ∧ 90 < pitchOf (-1) ∧ pitchOf 2000 < -90
    ∧ (hsOutOfRange.yaw = round2 (yawOf ((500 : ℚ), (1500 : ℚ)).2)
        ∧ hsOutOfRange.pitch = round2 (pitchOf ((500 : ℚ), (1500 : ℚ)).1)
        ∧ hsOutOfRange.y_norm = ((500 : ℚ), (1500 : ℚ)).1
        ∧ hsOutOfRange.x_norm = ((500 : ℚ), (1500 : ℚ)).2) := by
  have hmk : mkHotspot 0 ((500 : ℚ), (1500 : ℚ)) = some hsOutOfRange := by
    have hl : labelFor 0 = some "A" := by decide
    have hz : toString 0 = "0" := by decide
    simp [mkHotspot, hl, hsOutOfRange, hz]
  exact ⟨coordinate_mapping.2.2.2.2.2.2.2.1 2000 (by norm_num),
    coordinate_mapping.2.2.2.2.2.2.2.2.1 (-1) (by norm_num),
    coordinate_mapping.2.2.2.2.2.2.2.2.2.1 (-1) (by norm_num),
    coordinate_mapping.2.2.2.2.2.2.2.2.2.2.1 2000 (by norm_num),
    coordinate_mapping.2.2.2.2.2.2.1 0 ((500 : ℚ), (1500 : ℚ)) hsOutOfRange hmk⟩

/-- C5: every produced hotspot list is non-decreasing in `x_norm`, ties
in `x` keep the parser's relative order (stable sort), and position `i`
carries `id = str(i)` and the position-`i` label. -/
theorem hotspot_invariants (pts : List (ℚ × ℚ)) (hs : List Hotspot)
    (h : buildHotspots pts = some hs) :
    hs.Pairwise (fun a b => a.x_norm ≤ b.x_norm)
    ∧ (∀ i (hi : i < hs.length),
        (hs.get ⟨i, hi⟩).id = toString i
        ∧ labelFor i = some (hs.get ⟨i, hi⟩).label)
    ∧ hs.map (fun x => (x.y_norm, x.x_norm)) = sortPoints pts
    ∧ (∀ p q : ℚ × ℚ, p.2 = q.2 → List.Sublist [p, q] pts →
        List.Sublist [p, q] (sortPoints pts)) := by
  unfold buildHotspots at h
  obtain ⟨hmap, hget⟩ := buildLoop_spec 0 (sortPoints pts) hs h
  refine ⟨?_, ?_, hmap, ?_⟩
  · have hp := sortPoints_pairwise pts
    rw [← hmap, List.pairwise_map] at hp
    exact hp
  · intro i hi
    have hi' := hget i hi
    exact ⟨by simpa using hi'.1, by simpa using hi'.2.1⟩
  · intro p q hpq hsub
    exact sortPoints_stable pts p q (le_of_eq hpq) hsub

/-- A parser output with a tie in `x` (positions 0 and 1) and an
out-of-order point. -/
def ptsW : List (ℚ × ℚ) := [(1, 5), (2, 5), (0, 0)]

/-- The hotspot list `detect.py` builds from `ptsW`. -/
def hsW : List Hotspot :=
  [{ id := "0", label := "A", yaw := -180, pitch := 90, y_norm := 0, x_norm := 0 },
   { id := "1", label := "B", yaw := -891/5, pitch := 4491/50, y_norm := 1, x_norm := 5 },
   { id := "2", label := "C", yaw := -891/5, pitch := 2241/25, y_norm := 2, x_norm := 5 }]

/-- Witness for C5 on `ptsW`: sorted output, stable tie order, ids and
labels by position. -/
theorem hotspot_invariants_witness :
    hsW.Pairwise (fun a b => a.x_norm ≤ b.x_norm)
    ∧ hsW.map (fun x => (x.y_norm, x.x_norm)) = sortPoints ptsW
    ∧ List.Sublist [((1 : ℚ), (5 : ℚ)), ((2 : ℚ), (5 : ℚ))] (sortPoints ptsW)
    ∧ (hsW.get ⟨1, by decide⟩).id = toString 1
    ∧ labelFor 1 = some (hsW.get ⟨1, by decide⟩).label := by
  have hsort : sortPoints ptsW = [(0, 0), (1, 5), (2, 5)] := by
    norm_num [ptsW, sortPoints, insertPt, xle]
  have hy0 : round2 (yawOf 0) = -180 := by
    rw [@round2_exact (yawOf 0) (-18000) (by norm_num [yawOf])]
    norm_num
  have hp0 : round2 (pitchOf 0) = 90 := by
    rw [@round2_exact (pitchOf 0) 9000 (by norm_num [pitchOf])]
    norm_num
  have hy5 : round2 (yawOf 5) = -891/5 := by
    rw [@round2_exact (yawOf 5) (-17820) (by norm_num [yawOf])]
    norm_num
  have hp1 : round2 (pitchOf 1) = 4491/50 := by
    rw [@round2_exact (pitchOf 1) 8982 (by norm_num [pitchOf])]
    norm_num
  have hp2 : round2 (pitchOf 2) = 2241/25 := by
    rw [@round2_exact (pitchOf 2) 8964 (by norm_num [pitchOf])]
    norm_num
  have hbuild : buildHotspots ptsW = some hsW := by
    unfold buildHotspots
    rw [hsort]
    simp [buildLoop, mkHotspot, hsW,
      show labelFor 0 = some "A" from by decide,
      show labelFor 1 = some "B" from by decide,
      show labelFor 2 = some "C" from by decide,
      show toString 0 = "0" from by decide,
      show toString 1 = "1" from by decide,
      show toString 2 = "2" from by decide,
      hy0, hp0, hy5, hp1, hp2]
  have h := hotspot_invariants ptsW hsW hbuild
  exact ⟨h.1, h.2.2.1,
    h.2.2.2 ((1 : ℚ), (5 : ℚ)) ((2 : ℚ), (5 : ℚ)) rfl
      (List.sublist_append_left _ _),
    (h.2.1 1 (by decide)).1, (h.2.1 1 (by decide)).2⟩

/-- C6 (amended): on primary-model failure exactly one backup call is
made, with the same image and prompt; if the backup also fails the run
returns the empty list without an exception; if the backup succeeds and
its response contains between 1 and 702 valid coordinate points, the
run returns a non-empty list.  (The original claim, without the 702
bound, fails: see the counterexample.) -/
theorem model_fallback (gen : String → Image → List Char → Option (List Char))
    (img : Image) (prompt : List Char) :
    (gen primaryModel img prompt = none →
      (invokeWithFallback gen img prompt).2 =
        [⟨primaryModel, img, prompt⟩, ⟨backupModel, img, prompt⟩])
    ∧ (gen primaryModel img prompt = none → gen backupModel img prompt = none →
        analyze_panorama (some img) gen prompt =
          (some [], [⟨primaryModel, img, prompt⟩, ⟨backupModel, img, prompt⟩]))
    ∧ (∀ text, gen primaryModel img prompt = none →
        gen backupModel img prompt = some text →
        parse_points text ≠ [] → (parse_points text).length ≤ 702 →
        ∃ hs, (analyze_panorama (some img) gen prompt).1 = some hs ∧ hs ≠ []) := by
  refine ⟨?_, ?_, ?_⟩
  · intro h1
    cases hb : gen backupModel img prompt <;>
      simp [invokeWithFallback, h1, hb]
  · intro h1 h2
    unfold analyze_panorama
    dsimp only
    unfold invokeWithFallback
    rw [h1, h2]
  · intro text h1 h2 hne hlen
    unfold analyze_panorama
    dsimp only
    unfold invokeWithFallback
    rw [h1, h2]
    dsimp only
    have htext : ¬ text = [] := by
      intro he
      subst he
      exact hne rfl
    rw [if_neg htext, if_neg hne]
    obtain ⟨hs, hhs⟩ := Option.isSome_iff_exists.mp
      ((buildHotspots_isSome_iff (parse_points text)).mpr hlen)
    rw [hhs]
    refine ⟨hs, rfl, ?_⟩
    intro he
    subst he
    have hmap := (buildLoop_spec 0 _ [] hhs).1
    have hlen0 := congrArg List.length hmap
    rw [length_sortPoints] at hlen0
    simp at hlen0
    exact hne (List.length_eq_zero.mp hlen0.symm)

def imgW : Image := ⟨0⟩

/-- A model oracle whose primary raises and whose backup answers
`[1,2]`. -/
def genW : String → Image → List Char → Option (List Char) :=
  fun m _ _ => if m = primaryModel then none else some pcOneTwo.chars

/-- Witness for C6 (amended): with `genW`, the run makes the two calls
and returns a non-empty list. -/
theorem model_fallback_witness :
    (invokeWithFallback genW imgW []).2 =
      [⟨primaryModel, imgW, []⟩, ⟨backupModel, imgW, []⟩]
    ∧ ∃ hs, (analyze_panorama (some imgW) genW []).1 = some hs ∧ hs ≠ [] := by
  have h1 : genW primaryModel imgW [] = none := by
    unfold genW
    rw [if_pos rfl]
  have h2 : genW backupModel imgW [] = some pcOneTwo.chars := by
    unfold genW
    rw [if_neg (by decide)]
  have hparse : parse_points pcOneTwo.chars = [(nlOne.val, nlTwo.val)] := by
    have h := parse_points_interleave [] [(pcOneTwo, [])] (by simp)
      (by intro pr hpr; simp at hpr; subst hpr; simp)
    simpa [interleave] using h
  refine ⟨(model_fallback genW imgW []).1 h1, ?_⟩
  refine (model_fallback genW imgW []).2.2 pcOneTwo.chars h1 h2 ?_ ?_
  · rw [hparse]
    simp
  · rw [hparse]
    simp

def bigText : List Char := interleave [] (List.replicate 703 (pcOneTwo, []))

/-- A model oracle whose primary raises and whose backup answers a text
with 703 valid coordinate points. -/
def genCE : String → Image → List Char → Option (List Char) :=
  fun m _ _ => if m = primaryModel then none else some bigText

/-- C6 counterexample: the primary call fails, the single backup call
succeeds and its response contains 703 valid coordinate points, yet the
detection run produces no hotspot list at all (the labelling loop's
`IndexError` at position 702), in particular not a non-empty one. -/
theorem model_fallback_counterexample :
    genCE primaryModel imgW [] = none
    ∧ genCE backupModel imgW [] = some bigText
    ∧ parse_points bigText ≠ []
    ∧ (parse_points bigText).length = 703
    ∧ (analyze_panorama (some imgW) genCE []).1 = none := by
  have hfill : ∀ pr ∈ List.replicate 703 ((pcOneTwo : PairChunk), ([] : List Char)),
      '[' ∉ pr.2 := by
    intro pr hpr
    rw [List.eq_of_mem_replicate hpr]
    simp
  have hparseB : parse_points bigText =
      List.replicate 703 (nlOne.val, nlTwo.val) := by
    have h := parse_points_interleave [] (List.replicate 703 (pcOneTwo, []))
      (by simp) hfill
    rw [List.map_replicate] at h
    exact h
  have hpne : ¬ parse_points bigText = [] := by
    rw [hparseB]
    intro he
    have hl := congrArg List.length he
    rw [List.length_replicate] at hl
    simp at hl
  have h1 : genCE primaryModel imgW [] = none := by
    unfold genCE
    rw [if_pos rfl]
  have h2 : genCE backupModel imgW [] = some bigText := by
    unfold genCE
    rw [if_neg (by decide)]
  refine ⟨h1, h2, hpne, by rw [hparseB, List.length_replicate], ?_⟩
  unfold analyze_panorama
  dsimp only
  unfold invokeWithFallback
  rw [h1, h2]
  dsimp only
  have htext : ¬ bigText = [] := by
    intro he
    rw [he] at hpne
    exact hpne rfl
  rw [if_neg htext, if_neg hpne]
  have hnone : buildHotspots (parse_points bigText) = none := by
    cases hb : buildHotspots (parse_points bigText) with
    | none => rfl
    | some hs =>
      have hs702 := (buildHotspots_isSome_iff _).mp (by rw [hb]; rfl)
      rw [hparseB, List.length_replicate] at hs702
      omega
  rw [hnone]

/-- C7: if the source image cannot be opened or decoded, the run
returns the empty hotspot list immediately, with no exception and no
model invocation. -/
theorem decode_failure_empty
    (gen : String → Image → List Char → Option (List Char))
    (prompt : List Char) :
    analyze_panorama none gen prompt = (some [], []) := rfl

/-- C8: saving a hotspot list for a session id and then loading that id
returns exactly what was saved — the stored JSON array is returned
unchanged and decodes back to the original hotspots, rational (hence
two-decimal) values included. -/
theorem save_load_roundtrip (fs : Store) (sid : String) (hs : List Hotspot) :
    get_data (save_data fs sid (encodeHotspots hs)) sid = encodeHotspots hs
    ∧ decodeHotspots (encodeHotspots hs) = some hs := by
  constructor
  · unfold get_data save_data
    rw [if_pos rfl]
  · unfold decodeHotspots encodeHotspots
    induction hs with
    | nil => rfl
    | cons h t ih =>
      simp only [List.map_cons, decodeHotspotList]
      rw [show decodeHotspot (encodeHotspot h) = some h from rfl]
      simp only at ih
      rw [ih]

/-- C9: loading a session id for which no record exists returns the
empty list, not an error. -/
theorem missing_session_empty (fs : Store) (sid : String)
    (h : fs sid = none) : get_data fs sid = Json.arr [] := by
  unfold get_data
  rw [h]

/-- Witness for C9: the empty store. -/
theorem missing_session_empty_witness :
    get_data (fun _ => none) "session-1" = Json.arr [] :=
  missing_session_empty (fun _ => none) "session-1" rfl
